import Mathlib

/-!
# Verification of the `sigsolve` board core (`board.py`)

Shallow embedding of the hexagonal-board legality engine:

* `Tile.REQUIRED_ADJACENT` is `requiredAdjacent`.
* A cell is identified with its position in the padded row grid built by
  `Tileset.__init__`: position `(y, x)` means list index `x` of padded row
  `self.rows[y]`.  (`Tile.xy` stores a shifted screen coordinate which only
  feeds the external geometry; no verified operation reads it.)
* The padded `rows` matrix holds a `Tile` exactly at the positions for which
  `isReal` below is `true`; every other in-range index holds `None`.  All
  indices used by the adjacency wiring loop stay inside the padded matrix
  (rows `0 .. diameter+1`, columns `0 .. diameter+1`), so the `None` entries
  of the padding rows/columns are exactly the off-board positions and no
  Python negative-index wraparound occurs.
* Mutable state (`_element`, `_legal`, `catalog`) becomes the `Board`
  structure; methods that mutate state become functions `Board → Board × _`.
-/

namespace Sigsolve

/-- Element tokens are the Python strings (`'fire'`, `'gold'`, ...). -/
abbrev Token := String

/-- A grid position: `(padded row index, index within the padded row)`. -/
abbrev Pos := Int × Int

/-- `Tile.REQUIRED_ADJACENT = 3`. -/
def requiredAdjacent : Nat := 3

/-- Python `abs` on integers. -/
def iabs (z : Int) : Int := if z < 0 then -z else z

/-- `diameter = 2*geometry.radius - 1` in `Tileset.__init__`. -/
def diameter (r : Int) : Int := 2 * r - 1

/-- Row `y`'s tile count: `count = diameter - abs(radius - (y+1))` for loop
index `y+1 =` padded row index.  Stated for the padded row index directly. -/
def rowCount (r y : Int) : Int := diameter r - iabs (r - y)

/-- Row `y`'s start: `start = (diameter - count) // 2` (nonnegative operand,
so Python floor division agrees with `Int` division). -/
def rowStart (r y : Int) : Int := (diameter r - rowCount r y) / 2

/-- The padded matrix `self.rows` holds a tile exactly at these positions:
real rows are padded indices `1 .. diameter`, and within padded row `y` the
loop stores tiles at list indices `start+1 .. start+count`. -/
def isReal (r : Int) (p : Pos) : Bool :=
  decide (1 ≤ p.1) && decide (p.1 ≤ diameter r) &&
    decide (rowStart r p.1 + 1 ≤ p.2) && decide (p.2 ≤ rowStart r p.1 + rowCount r p.1)

/-- `altrow = -((y+1) % 2)` for padded row index `y` (Python `%` and
`Int.emod` agree: both return a nonnegative remainder). -/
def altrow (y : Int) : Int := -((y + 1) % 2)

/-- Offsets of the six ring slots of a tile in padded row `y`, clockwise from
"left", exactly the index arithmetic of the wiring loop:
`row[x-1]`, `above[x+altrow]`, `above[x+altrow+1]`, `row[x+1]`,
`below[x+altrow+1]`, `below[x+altrow]`. -/
def slotOffset (y : Int) : Fin 6 → Pos
  | 0 => (0, -1)
  | 1 => (-1, altrow y)
  | 2 => (-1, altrow y + 1)
  | 3 => (0, 1)
  | 4 => (1, altrow y + 1)
  | 5 => (1, altrow y)

/-- Position referenced by ring slot `i` of the tile at `p`. -/
def nbrPos (p : Pos) (i : Fin 6) : Pos :=
  (p.1 + (slotOffset p.1 i).1, p.2 + (slotOffset p.1 i).2)

/-- Entry `i` of `tile.neighbors`: the referenced padded-matrix entry, which
is a tile iff the position is real and `None` otherwise. -/
def ring (r : Int) (p : Pos) (i : Fin 6) : Option Pos :=
  if isReal r (nbrPos p i) then some (nbrPos p i) else none

/-- The `tile.neighbors` list (length 6, clockwise from "left"). -/
def ringList (r : Int) (p : Pos) : List (Option Pos) :=
  (List.finRange 6).map (ring r p)

/-- Positions of one row of `self.tiles`, in append order (left to right). -/
def rowPositions (r y : Int) : List Pos :=
  (List.range (rowCount r y).toNat).map (fun k : Nat => (y, rowStart r y + 1 + (k : Int)))

/-- `self.tiles` as a list of positions, in the construction's append order:
rows top to bottom (`for y in range(0, diameter)` stores into padded row
`y+1`), left to right within a row. -/
def tilesList (r : Int) : List Pos :=
  (List.range (diameter r).toNat).flatMap (fun y => rowPositions r ((y : Int) + 1))

/-- The mutable state of a `Tileset` and its `Tile`s.  The topology (the
ring wiring and the tile list) is the pure function of `radius` above;
`element` is `Tile._element`, `cache` is the tri-state `Tile._legal`
(`none` = unknown, `some true` = legal, `some false` = illegal), `catalog`
is `Tileset.catalog` where a token absent from the dictionary is the empty
set (`CatalogDictionary.__missing__` returns an empty collection). -/
structure Board where
  radius : Int
  element : Pos → Option Token
  cache : Pos → Option Bool
  catalog : Token → Finset Pos

/-- The board built by `Tileset.__init__`: every tile starts with
`_element = None`, `_legal = None`, and the catalog starts empty. -/
def initBoard (r : Int) : Board :=
  { radius := r
    element := fun _ => none
    cache := fun _ => none
    catalog := fun _ => ∅ }

/-- `Tileset.__init__` as a fallible constructor.  No statement in the
constructor can raise for any integer radius: `itertools.repeat(None, n)`
and `range(0, n)` are empty for `n ≤ 0` rather than failing, the wiring
loop's indices stay in range for every constructed tile, and there is no
radius validation anywhere in the body — so construction always succeeds. -/
def mkTileset (r : Int) : Option Board := some (initBoard r)

/-- `Tile.real_neighbors`: the non-`None` ring entries, in ring order. -/
def realNeighbors (r : Int) (p : Pos) : List Pos :=
  (ringList r p).filterMap id

/-- `Tile.nonempty_neighbors`: ring entries that are tiles holding an
element, in ring order (`n is not None and n.element is not None`). -/
def nonemptyNeighbors (b : Board) (p : Pos) : List Pos :=
  (realNeighbors b.radius p).filter (fun q => (b.element q).isSome)

/-- `Tile.expire_legality(onlyif)`: reset the cache of `p` to unknown, but
when `onlyif` is a boolean only if the cache currently holds exactly that
boolean (`self._legal is not onlyif` compares identity on `None`/`True`/
`False`, i.e. equality of our `Option Bool` against `some onlyif`). -/
def expireLegality (b : Board) (p : Pos) (onlyif : Option Bool) : Board :=
  match onlyif with
  | some v =>
      if b.cache p = some v then
        { b with cache := fun q => if q = p then none else b.cache q }
      else b
  | none => { b with cache := fun q => if q = p then none else b.cache q }

/-- `Tileset.element_changed(tile, previous, current)`.  `b` is the state
in which `tile._element` has already been set to `current` (the setter
assigns before notifying).  Catalog update: `discard` from the previous
token's set, `setdefault(...).add` to the current token's set.  Then, only
when emptiness actually changed (`(previous is None) is (current is None)`
is false), expire every real neighbor's cache with `onlyif = (previous is
None)`.  (`self.catalog[previous].discard` presupposes the previous token
has a stored set; that holds in every state reachable through the element
setter, and the total `Finset.erase` agrees with `discard` there.) -/
def elementChanged (b : Board) (p : Pos) (previous current : Option Token) : Board :=
  if previous = current then b
  else
    let b1 :=
      match previous with
      | some t => { b with catalog := fun u => if u = t then (b.catalog t).erase p else b.catalog u }
      | none => b
    let b2 :=
      match current with
      | some t => { b1 with catalog := fun u => if u = t then insert p (b1.catalog t) else b1.catalog u }
      | none => b1
    if previous.isNone = current.isNone then b2
    else
      (realNeighbors b.radius p).foldl
        (fun acc q => expireLegality acc q (some previous.isNone)) b2

/-- The `Tile.element` setter: a write of the current value is a no-op (no
notification); otherwise the field is assigned and the owner is notified. -/
def setElement (b : Board) (p : Pos) (v : Option Token) : Board :=
  if v = b.element p then b
  else
    elementChanged
      { b with element := fun q => if q = p then v else b.element q }
      p (b.element p) v

/-- The per-neighbor pair `(actual, predicted)` produced by `_gen` inside
`Tile.predict_legality`: `free` is `(True, True)` (slot `None` or empty),
`removedOcc` is `(False, True)` (occupied but in `removed`), `blocked` is
`(False, False)`. -/
inductive SlotStatus
  | free
  | removedOcc
  | blocked
deriving DecidableEq

/-- First component of the pair. -/
def SlotStatus.actual : SlotStatus → Bool
  | .free => true
  | _ => false

/-- Second component of the pair. -/
def SlotStatus.predicted : SlotStatus → Bool
  | .blocked => false
  | _ => true

/-- Classification of one ring entry by `_gen`'s three-way branch. -/
def slotStatus (b : Board) (removed : Finset Pos) : Option Pos → SlotStatus
  | none => .free
  | some q =>
      if b.element q = none then .free
      else if q ∈ removed then .removedOcc
      else .blocked

/-- The `cache` list accumulated by `_gen` for the wraparound replay:
`cache_count` starts at `REQUIRED_ADJACENT - 1`, is permanently zeroed by
the first `(False, False)` pair (before the append check), and each
append decrements it. -/
def genCache : List SlotStatus → Nat → List SlotStatus
  | [], _ => []
  | s :: rest, cnt =>
      let cnt1 := if s = .blocked then 0 else cnt
      if cnt1 ≠ 0 then s :: genCache rest (cnt1 - 1) else genCache rest cnt1

/-- Everything `_gen` yields: the six ring pairs followed by the replayed
cache. -/
def genPairs (slots : List SlotStatus) : List SlotStatus :=
  slots ++ genCache slots (requiredAdjacent - 1)

/-- Outcome of the scanning loop of `predict_legality`: either the early
`return True` (which also caches `Legal`), or fall-through with the final
`result` value (which caches `Illegal` and returns `result`). -/
inductive ScanResult
  | earlyLegal
  | completed (predicted : Bool)
deriving DecidableEq

/-- The `predicted_run` / `result` update of one loop iteration. -/
def predStep (s : SlotStatus) (pRun : Nat) (res : Bool) : Nat × Bool :=
  if s.predicted then (pRun + 1, res || decide (requiredAdjacent ≤ pRun + 1))
  else (0, res)

/-- The scanning loop over the pairs yielded by `_gen`. -/
def runScan : List SlotStatus → Nat → Nat → Bool → ScanResult
  | [], _, _, res => .completed res
  | s :: rest, aRun, pRun, res =>
      if s.actual then
        if requiredAdjacent ≤ aRun + 1 then .earlyLegal
        else
          let pr := predStep s pRun res
          runScan rest (aRun + 1) pr.1 pr.2
      else
        let pr := predStep s pRun res
        runScan rest 0 pr.1 pr.2

/-- Outcome of the whole scan (ring pass plus wraparound replay). -/
def scanOutcome (slots : List SlotStatus) : ScanResult :=
  runScan (genPairs slots) 0 0 false

/-- The slot statuses `_gen` classifies for the tile at `p`. -/
def ringStatuses (b : Board) (p : Pos) (removed : Finset Pos) : List SlotStatus :=
  (ringList b.radius p).map (slotStatus b removed)

/-- The compute-and-cache tail of `predict_legality` (reached when the
cached value is not reusable): on the early exit the cache is set to
`Legal` and `True` is returned; on fall-through the cache is set to
`Illegal` (unconditionally — line `self._legal = False`) and the predicted
`result` is returned. -/
def predictCompute (b : Board) (p : Pos) (removed : Finset Pos) : Board × Bool :=
  match scanOutcome (ringStatuses b p removed) with
  | .earlyLegal => ({ b with cache := fun q => if q = p then some true else b.cache q }, true)
  | .completed res => ({ b with cache := fun q => if q = p then some false else b.cache q }, res)

/-- `Tile.predict_legality(removed)`.  The Python guard
`if self._legal or (not removed and self._legal is False): return self._legal`
returns the cached `True` always, and the cached `False` only when `removed`
is empty (`None` and the empty set are both falsy). -/
def predictLegality (b : Board) (p : Pos) (removed : Finset Pos) : Board × Bool :=
  match b.cache p with
  | some true => (b, true)
  | some false => if removed = ∅ then (b, false) else predictCompute b p removed
  | none => predictCompute b p removed

/-- The `Tile.legal` property: `predict_legality()` with no removals. -/
def legalRead (b : Board) (p : Pos) : Board × Bool :=
  predictLegality b p ∅

/-- One iteration of the loops in `Tile.affected_neighbors` and
`Tile.affected_tiles`: call `predict_legality(removed)` on the candidate
and, only when it returned `True`, read `candidate.legal`; the candidate is
kept when the prediction is `True` and the authoritative read is `False`. -/
def affectedStep (removed : Finset Pos) (b : Board) (q : Pos) : Board × Bool :=
  let pr := predictLegality b q removed
  if pr.2 then
    let lg := legalRead pr.1 q
    (lg.1, !lg.2)
  else (pr.1, false)

/-- `Tile.affected_neighbors`: walk the nonempty ring neighbors in ring
order, keeping those that predict legal under removal of `p` alone but are
not already legal.  Threads the cache side effects through the walk. -/
def affectedNeighbors (b : Board) (p : Pos) : Board × List Pos :=
  (nonemptyNeighbors b p).foldl
    (fun acc q =>
      let st := affectedStep {p} acc.1 q
      (st.1, if st.2 then acc.2 ++ [q] else acc.2))
    (b, [])

/-- `Tile.all_neighbors` as called from `Tile.affected_tiles`: the union of
the real neighbors of every nonempty member of `tiles`.  The subsequent
`neighbors.difference_update(tiles)` receives the already-exhausted
generator that was iterated to build the union, so it removes nothing, and
`discard(None)` is vacuous because `real_neighbors` yields no `None`. -/
def allNeighborsOf (b : Board) (tiles : Finset Pos) : Finset Pos :=
  tiles.biUnion (fun t =>
    if (b.element t).isSome then (realNeighbors b.radius t).toFinset else ∅)

/-- `Tile.affected_tiles(tiles)`: for each candidate in the neighbor union
(a Python set; its iteration order is unspecified, modelled here by the
fixed `tilesList` enumeration — every candidate is a real tile), skip empty
candidates, and keep those with `predict_legality(tiles) and not legal`
(short-circuit `and`: the `legal` read happens only after a `True`
prediction — the source marks this with "Order matters!"). -/
def affectedTiles (b : Board) (tiles : Finset Pos) : Board × Finset Pos :=
  ((tilesList b.radius).filter (fun q => q ∈ allNeighborsOf b tiles)).foldl
    (fun acc q =>
      if acc.1.element q = none then acc
      else
        let st := affectedStep tiles acc.1 q
        (st.1, if st.2 then insert q acc.2 else acc.2))
    (b, ∅)

/-- `Tileset.legal_tiles`: the set of tiles with `t.legal and t.element is
not None`, threading the cache effects of the `legal` reads (the element
test is evaluated only after a `True` read, by short-circuiting). -/
def legalTiles (b : Board) : Board × Finset Pos :=
  (tilesList b.radius).foldl
    (fun acc q =>
      let lg := legalRead acc.1 q
      if lg.2 ∧ (lg.1.element q).isSome then (lg.1, insert q acc.2)
      else (lg.1, acc.2))
    (b, ∅)

/-- `Tileset.count(element)`: the size of the catalog set. -/
def count (b : Board) (t : Token) : Nat := (b.catalog t).card

/-- `Tileset.bitmap()`: `result <<= 1; if tile.element: result |= 1` over
`self.tiles` in enumeration order.  `if tile.element:` tests Python
truthiness, which for an optional string is "present and nonempty". -/
def truthy : Option Token → Bool
  | none => false
  | some s => decide (s ≠ "")

/-- The bitmap fold. -/
def bitmap (b : Board) : Nat :=
  (tilesList b.radius).foldl
    (fun acc p => 2 * acc + (if truthy (b.element p) then 1 else 0)) 0

/-! ## The from-scratch legality predicate

The reference meaning of "legal": the cyclic 6-slot ring contains a run of
at least `requiredAdjacent` consecutive slots that are off-board or empty. -/

/-- Whether a ring entry is passable: `None` (off-board) or an empty tile. -/
def slotEmpty (b : Board) : Option Pos → Bool
  | none => true
  | some q => decide (b.element q = none)

/-- The passability of the six ring slots of `p`, in ring order. -/
def ringBools (b : Board) (p : Pos) : List Bool :=
  (ringList b.radius p).map (slotEmpty b)

/-- A cyclic run of `requiredAdjacent` consecutive `true`s somewhere in the
list (indices taken modulo the length). -/
def cyclicRun (bs : List Bool) : Bool :=
  (List.range bs.length).any (fun s =>
    (List.range requiredAdjacent).all (fun j => bs.getD ((s + j) % bs.length) false))

/-- From-scratch recomputation of legality of the cell at `p` over the
current element values (independent of every cache). -/
def legalSpec (b : Board) (p : Pos) : Bool :=
  cyclicRun (ringBools b p)

/-- Boards reachable from a freshly constructed `Tileset` by element
mutations through the `Tile.element` setter (the sole mutation entry
point); only real tiles exist to be mutated. -/
inductive Reachable (r : Int) : Board → Prop
  | init : Reachable r (initBoard r)
  | step (b : Board) (p : Pos) (v : Option Token) :
      Reachable r b → isReal r p = true → Reachable r (setElement b p v)

/-! ## Topology lemmas -/

lemma nbrPos_ne_self (p : Pos) (i : Fin 6) : nbrPos p i ≠ p := by
  obtain ⟨y, x⟩ := p
  fin_cases i <;>
    · simp only [nbrPos, slotOffset, altrow, ne_eq, Prod.mk.injEq, not_and]
      omega

lemma nbrPos_nbrPos (p : Pos) (i : Fin 6) : nbrPos (nbrPos p i) (i + 3) = p := by
  obtain ⟨y, x⟩ := p
  fin_cases i
  · show nbrPos (nbrPos (y, x) 0) 3 = (y, x)
    simp only [nbrPos, slotOffset, altrow, Prod.mk.injEq]
    omega
  · show nbrPos (nbrPos (y, x) 1) 4 = (y, x)
    simp only [nbrPos, slotOffset, altrow, Prod.mk.injEq]
    omega
  · show nbrPos (nbrPos (y, x) 2) 5 = (y, x)
    simp only [nbrPos, slotOffset, altrow, Prod.mk.injEq]
    omega
  · show nbrPos (nbrPos (y, x) 3) 0 = (y, x)
    simp only [nbrPos, slotOffset, altrow, Prod.mk.injEq]
    omega
  · show nbrPos (nbrPos (y, x) 4) 1 = (y, x)
    simp only [nbrPos, slotOffset, altrow, Prod.mk.injEq]
    omega
  · show nbrPos (nbrPos (y, x) 5) 2 = (y, x)
    simp only [nbrPos, slotOffset, altrow, Prod.mk.injEq]
    omega

lemma ring_eq_some_iff {r : Int} {p q : Pos} {i : Fin 6} :
    ring r p i = some q ↔ isReal r q = true ∧ nbrPos p i = q := by
  unfold ring
  split <;> rename_i h
  · constructor
    · rintro ⟨rfl⟩; exact ⟨h, rfl⟩
    · rintro ⟨-, rfl⟩; rfl
  · constructor
    · rintro ⟨⟩
    · rintro ⟨hq, rfl⟩; exact absurd hq (by simp [h])

lemma add_three_add_three : ∀ i : Fin 6, i + 3 + 3 = i := by decide

/-- Adjacency symmetry: tile `q` sits in slot `i` of `p`'s ring exactly
when tile `p` sits in the diametrically opposite slot `i + 3` of `q`'s
ring. -/
lemma ring_symm_aux {r : Int} {p q : Pos} {i : Fin 6}
    (hp : isReal r p = true) (h : ring r p i = some q) :
    ring r q (i + 3) = some p := by
  rw [ring_eq_some_iff] at h ⊢
  obtain ⟨hq, rfl⟩ := h
  exact ⟨hp, nbrPos_nbrPos p i⟩

lemma mem_rowPositions {r y : Int} {p : Pos} :
    p ∈ rowPositions r y ↔
      p.1 = y ∧ rowStart r y + 1 ≤ p.2 ∧ p.2 ≤ rowStart r y + rowCount r y := by
  obtain ⟨py, px⟩ := p
  unfold rowPositions
  simp only [List.mem_map, List.mem_range, Prod.mk.injEq]
  constructor
  · rintro ⟨k, hk, rfl, rfl⟩
    have hk' : (k : Int) < (rowCount r y).toNat := by exact_mod_cast hk
    refine ⟨rfl, by omega, by omega⟩
  · rintro ⟨rfl, h2, h3⟩
    refine ⟨(px - rowStart r py - 1).toNat, by omega, rfl, by omega⟩

lemma mem_tilesList {r : Int} {p : Pos} :
    p ∈ tilesList r ↔ isReal r p = true := by
  unfold tilesList
  rw [List.mem_flatMap]
  simp only [isReal, Bool.and_eq_true, decide_eq_true_eq]
  constructor
  · rintro ⟨y, hy, hp⟩
    rw [List.mem_range] at hy
    rw [mem_rowPositions] at hp
    obtain ⟨h1, h2, h3⟩ := hp
    have hy' : (y : Int) < (diameter r).toNat := by exact_mod_cast hy
    rw [h1]
    exact ⟨⟨⟨by omega, by omega⟩, h2⟩, h3⟩
  · rintro ⟨⟨⟨h1, h2⟩, h3⟩, h4⟩
    have hY : ((p.1 - 1).toNat : Int) + 1 = p.1 := by omega
    refine ⟨(p.1 - 1).toNat, ?_, ?_⟩
    · rw [List.mem_range]
      omega
    · rw [mem_rowPositions, hY]
      exact ⟨rfl, h3, h4⟩

lemma rowPositions_nodup (r y : Int) : (rowPositions r y).Nodup := by
  unfold rowPositions
  refine (List.nodup_range _).map ?_
  intro a b h
  simp only [Prod.mk.injEq] at h
  omega

lemma tilesList_nodup (r : Int) : (tilesList r).Nodup := by
  unfold tilesList
  rw [List.nodup_flatMap]
  refine ⟨fun y _ => rowPositions_nodup r _, ?_⟩
  refine List.Pairwise.imp ?_ (List.pairwise_lt_range _)
  intro a b hab p hp hq
  rw [mem_rowPositions] at hp hq
  omega

/-- `mkTileset` never fails and a non-positive radius yields a board with
no tiles.  `Tileset.__init__` contains no radius validation: for radius 0
the row loop is empty and construction returns an empty board. -/
theorem construction_accepts_nonpositive_radius :
    mkTileset 0 = some (initBoard 0) ∧ tilesList 0 = [] :=
  ⟨rfl, rfl⟩

/-- C10: the adjacency wiring built at construction is symmetric — for real
cells `a` and `b`, `a` occupies slot `i` of `b`'s ring iff `b` occupies the
diametrically opposite slot `i + 3` (mod 6) of `a`'s ring. -/
theorem ring_symm (r : Int) (a b : Pos) (i : Fin 6)
    (ha : isReal r a = true) (hb : isReal r b = true) :
    ring r b i = some a ↔ ring r a (i + 3) = some b := by
  constructor
  · exact fun h => ring_symm_aux hb h
  · intro h
    have := ring_symm_aux ha h
    rwa [add_three_add_three] at this

/-- Witness for `ring_symm`: on the radius-2 board, the center `(2,2)` has
`(2,1)` in its "left" slot, and symmetrically sits in the "right" slot of
`(2,1)`. -/
theorem ring_symm_witness :
    ring 2 ((2 : Int), (1 : Int)) ((0 : Fin 6) + 3) = some ((2 : Int), (2 : Int)) :=
  (ring_symm 2 ((2 : Int), (1 : Int)) ((2 : Int), (2 : Int)) 0
    (by decide) (by decide)).mp (by decide)

/-! ## The scan: replay cache and wraparound correctness -/

/-- Slot classification when no removals are hypothesised: a passable slot
is `(True, True)`, an occupied one `(False, False)`. -/
def statusOfBool : Bool → SlotStatus
  | true => .free
  | false => .blocked

lemma slotStatus_empty_removed (b : Board) (o : Option Pos) :
    slotStatus b ∅ o = statusOfBool (slotEmpty b o) := by
  cases o with
  | none => rfl
  | some q =>
      simp only [slotStatus, slotEmpty, Finset.not_mem_empty, if_false]
      by_cases h : b.element q = none <;> simp [h, statusOfBool]

/-- On a 6-slot ring with no removals, the single forward pass plus the
replayed prefix decides exactly the cyclic-run predicate: the loop exits
early (and caches `Legal`) iff a cyclic run of length `requiredAdjacent`
exists, and otherwise falls through with `result = False`. -/
lemma scanOutcome_eq_cyclicRun :
    ∀ b0 b1 b2 b3 b4 b5 : Bool,
      scanOutcome ([b0, b1, b2, b3, b4, b5].map statusOfBool) =
        if cyclicRun [b0, b1, b2, b3, b4, b5] then .earlyLegal else .completed false := by
  decide

/-- `cyclicRun` is monotone in the pointwise order on 6-slot rings. -/
lemma cyclicRun_mono :
    ∀ a0 a1 a2 a3 a4 a5 b0 b1 b2 b3 b4 b5 : Bool,
      a0 ≤ b0 → a1 ≤ b1 → a2 ≤ b2 → a3 ≤ b3 → a4 ≤ b4 → a5 ≤ b5 →
      cyclicRun [a0, a1, a2, a3, a4, a5] = true →
      cyclicRun [b0, b1, b2, b3, b4, b5] = true := by
  decide

lemma genCache_zero (slots : List SlotStatus) : genCache slots 0 = [] := by
  induction slots with
  | nil => rfl
  | cons s rest ih => simp [genCache, ih]

lemma genCache_eq_takeWhile (slots : List SlotStatus) (cnt : Nat) :
    genCache slots cnt =
      (slots.takeWhile (fun s => decide (s ≠ SlotStatus.blocked))).take cnt := by
  induction slots generalizing cnt with
  | nil => simp [genCache]
  | cons s rest ih =>
      by_cases hs : s = SlotStatus.blocked
      · subst hs
        simp [genCache, genCache_zero, List.takeWhile_cons]
      · cases cnt with
        | zero => simp [genCache, hs, genCache_zero]
        | succ n => simp [genCache, hs, List.takeWhile_cons, ih]

/-! ## C2: caching `Illegal` while evaluating a hypothesis -/

/-- A radius-2 board: center `(2,2)` empty with unknown legality, all six
ring cells holding token `"A"` (caches unknown, catalog consistent). -/
def ringFull : Board :=
  { radius := 2
    element := fun p => if isReal 2 p = true ∧ p ≠ ((2 : Int), (2 : Int)) then some "A" else none
    cache := fun _ => none
    catalog := fun t =>
      if t = "A" then
        {((1 : Int), (1 : Int)), ((1 : Int), (2 : Int)), ((2 : Int), (1 : Int)),
          ((2 : Int), (3 : Int)), ((3 : Int), (1 : Int)), ((3 : Int), (2 : Int))}
      else ∅ }

/-- C2 is false of the code: on `ringFull`, with cache unknown and the
nonempty removal set containing the left neighbor, the scan completes
without the actual run reaching `K` — and line `self._legal = False` still
caches `Illegal`, rather than leaving the cache unchanged. -/
theorem predict_caches_illegal_under_removal :
    ringFull.cache ((2 : Int), (2 : Int)) = none ∧
    ({((2 : Int), (1 : Int))} : Finset Pos) ≠ (∅ : Finset Pos) ∧
    scanOutcome (ringStatuses ringFull ((2 : Int), (2 : Int)) {((2 : Int), (1 : Int))}) =
      .completed false ∧
    (predictLegality ringFull ((2 : Int), (2 : Int)) {((2 : Int), (1 : Int))}).1.cache
      ((2 : Int), (2 : Int)) = some false := by
  exact ⟨rfl, by decide, by decide, by decide⟩

/-- C2 amended: whenever the scan (ring pass plus replay) completes without
the actual run reaching `K`, the cache is set to `Illegal` regardless of
whether `removed` is empty.  (The actual run ignores `removed`, so the
cached value is still the authoritative no-removals answer.) -/
theorem predict_caches_illegal_on_completion (b : Board) (p : Pos) (removed : Finset Pos)
    (hcache : b.cache p = none)
    (hscan : scanOutcome (ringStatuses b p removed) ≠ ScanResult.earlyLegal) :
    (predictLegality b p removed).1.cache p = some false := by
  simp only [predictLegality, hcache]
  rcases h : scanOutcome (ringStatuses b p removed) with _ | res
  · exact absurd h hscan
  · simp [predictCompute, h]

/-- Witness: the amended C2 applied to `ringFull` with a nonempty removal
set. -/
theorem predict_caches_illegal_on_completion_witness :
    ringFull.cache ((2 : Int), (2 : Int)) = none ∧
    (predictLegality ringFull ((2 : Int), (2 : Int)) {((2 : Int), (1 : Int))}).1.cache
      ((2 : Int), (2 : Int)) = some false :=
  ⟨rfl, predict_caches_illegal_on_completion ringFull _ _ rfl (by decide)⟩

/-! ## C3: what the replay captures -/

/-- The replay-capture rule exactly as the specification words it: stop
capturing as soon as any `actual = false` pair is produced.  (This follows
the spec's words, not the code; it is compared against `genCache`.) -/
def specReplay (slots : List SlotStatus) : List SlotStatus :=
  (slots.takeWhile (fun s => s.actual)).take (requiredAdjacent - 1)

/-- C3 is false of the code: a first ring pair for a neighbor that is
nonempty but in `removed` has `actual = false`, yet `_gen` still captures
it for replay (`cache_count` is only zeroed on `(False, False)` pairs).
On `ringFull` with the left neighbor removed, the captured replay is
`[(False, True)]` while the spec's rule captures nothing. -/
theorem replay_keeps_removed_pair :
    (ringStatuses ringFull ((2 : Int), (2 : Int)) {((2 : Int), (1 : Int))}).take 1 =
      [SlotStatus.removedOcc] ∧
    SlotStatus.removedOcc.actual = false ∧
    genCache (ringStatuses ringFull ((2 : Int), (2 : Int)) {((2 : Int), (1 : Int))})
      (requiredAdjacent - 1) = [SlotStatus.removedOcc] ∧
    specReplay (ringStatuses ringFull ((2 : Int), (2 : Int)) {((2 : Int), (1 : Int))}) = [] := by
  exact ⟨by decide, rfl, by decide, by decide⟩

/-- C3 amended: the replayed pairs are exactly the prefix of the produced
pairs of length at most `K - 1` truncated at the first fully blocked pair
(`actual = false` and `predicted = false`); a pair for a neighbor that is
nonempty but in `removed` (`actual = false`, `predicted = true`) is still
captured. -/
theorem replay_is_bounded_prefix (slots : List SlotStatus) :
    genCache slots (requiredAdjacent - 1) =
      (slots.takeWhile (fun s => decide (s ≠ SlotStatus.blocked))).take (requiredAdjacent - 1) ∧
    (∃ rest, slots = genCache slots (requiredAdjacent - 1) ++ rest) ∧
    (genCache slots (requiredAdjacent - 1)).length ≤ requiredAdjacent - 1 := by
  refine ⟨genCache_eq_takeWhile slots _, ?_, ?_⟩
  · refine ⟨(slots.takeWhile (fun s => decide (s ≠ SlotStatus.blocked))).drop (requiredAdjacent - 1)
      ++ slots.dropWhile (fun s => decide (s ≠ SlotStatus.blocked)), ?_⟩
    rw [genCache_eq_takeWhile, ← List.append_assoc, List.take_append_drop,
      List.takeWhile_append_dropWhile]
  · rw [genCache_eq_takeWhile]
    exact (List.length_take_le _ _)

/-! ## Frame and locality lemmas for the legality reads -/

lemma ringList_eq (r : Int) (p : Pos) :
    ringList r p =
      [ring r p 0, ring r p 1, ring r p 2, ring r p 3, ring r p 4, ring r p 5] := rfl

lemma ringBools_eq (b : Board) (p : Pos) :
    ringBools b p =
      [slotEmpty b (ring b.radius p 0), slotEmpty b (ring b.radius p 1),
        slotEmpty b (ring b.radius p 2), slotEmpty b (ring b.radius p 3),
        slotEmpty b (ring b.radius p 4), slotEmpty b (ring b.radius p 5)] := rfl

lemma ringStatuses_empty (b : Board) (p : Pos) :
    ringStatuses b p ∅ = (ringBools b p).map statusOfBool := by
  unfold ringStatuses ringBools
  rw [List.map_map]
  exact List.map_congr_left (fun o _ => slotStatus_empty_removed b o)

lemma scanOutcome_empty (b : Board) (p : Pos) :
    scanOutcome (ringStatuses b p ∅) =
      if legalSpec b p then ScanResult.earlyLegal else ScanResult.completed false := by
  rw [ringStatuses_empty]
  unfold legalSpec
  rw [ringBools_eq]
  exact scanOutcome_eq_cyclicRun _ _ _ _ _ _

/-- `predict_legality` with no removals computes exactly the from-scratch
predicate, caches it, and touches nothing else. -/
lemma predictCompute_empty (b : Board) (p : Pos) :
    predictCompute b p ∅ =
      ({ b with cache := fun q => if q = p then some (legalSpec b p) else b.cache q },
        legalSpec b p) := by
  unfold predictCompute
  rw [scanOutcome_empty]
  rcases h : legalSpec b p <;> simp [h]

lemma predictCompute_frame (b : Board) (p : Pos) (removed : Finset Pos) :
    (predictCompute b p removed).1.radius = b.radius ∧
    (predictCompute b p removed).1.element = b.element ∧
    (predictCompute b p removed).1.catalog = b.catalog ∧
    ∀ q, q ≠ p → (predictCompute b p removed).1.cache q = b.cache q := by
  unfold predictCompute
  rcases scanOutcome (ringStatuses b p removed) <;>
    exact ⟨rfl, rfl, rfl, fun q hq => by simp [hq]⟩

lemma predictLegality_frame (b : Board) (p : Pos) (removed : Finset Pos) :
    (predictLegality b p removed).1.radius = b.radius ∧
    (predictLegality b p removed).1.element = b.element ∧
    (predictLegality b p removed).1.catalog = b.catalog ∧
    ∀ q, q ≠ p → (predictLegality b p removed).1.cache q = b.cache q := by
  unfold predictLegality
  rcases b.cache p with _ | v
  · exact predictCompute_frame b p removed
  · rcases v
    · by_cases h : removed = ∅
      · simp only [h, if_pos rfl]
        exact ⟨rfl, rfl, rfl, fun _ _ => rfl⟩
      · simp only [if_neg h]
        exact predictCompute_frame b p removed
    · exact ⟨rfl, rfl, rfl, fun _ _ => rfl⟩

lemma slotStatus_congr {b b' : Board} (hel : b'.element = b.element)
    (removed : Finset Pos) (o : Option Pos) :
    slotStatus b' removed o = slotStatus b removed o := by
  cases o <;> simp [slotStatus, hel]

lemma ringStatuses_congr {b b' : Board} (p : Pos) (removed : Finset Pos)
    (hrad : b'.radius = b.radius) (hel : b'.element = b.element) :
    ringStatuses b' p removed = ringStatuses b p removed := by
  unfold ringStatuses
  rw [hrad]
  exact List.map_congr_left (fun o _ => slotStatus_congr hel removed o)

/-- The result and the written cache entry of `predict_legality` at `p`
depend only on the cached value at `p`, the element values and the
topology — not on any other cell's cache. -/
lemma predictLegality_congr {b b' : Board} (p : Pos) (removed : Finset Pos)
    (hrad : b'.radius = b.radius) (hel : b'.element = b.element)
    (hc : b'.cache p = b.cache p) :
    (predictLegality b' p removed).2 = (predictLegality b p removed).2 ∧
    (predictLegality b' p removed).1.cache p = (predictLegality b p removed).1.cache p := by
  have hstat : ringStatuses b' p removed = ringStatuses b p removed :=
    ringStatuses_congr p removed hrad hel
  have hcomp :
      (predictCompute b' p removed).2 = (predictCompute b p removed).2 ∧
      (predictCompute b' p removed).1.cache p = (predictCompute b p removed).1.cache p := by
    unfold predictCompute
    rw [hstat]
    rcases scanOutcome (ringStatuses b p removed) <;> simp
  unfold predictLegality
  rw [hc]
  rcases b.cache p with _ | v
  · exact hcomp
  · rcases v
    · by_cases h : removed = ∅
      · simp only [h, if_pos rfl]
        exact ⟨rfl, hc⟩
      · simp only [if_neg h]
        exact hcomp
    · exact ⟨rfl, hc⟩

/-! ## Effect of the element setter on caches and catalog -/

lemma expireLegality_frame (b : Board) (x : Pos) (o : Option Bool) :
    (expireLegality b x o).radius = b.radius ∧
    (expireLegality b x o).element = b.element ∧
    (expireLegality b x o).catalog = b.catalog := by
  unfold expireLegality
  rcases o with _ | v
  · exact ⟨rfl, rfl, rfl⟩
  · by_cases h : b.cache x = some v <;> simp [h]

lemma expireLegality_cache (b : Board) (x q : Pos) (ov : Bool) :
    (expireLegality b x (some ov)).cache q =
      if q = x ∧ b.cache x = some ov then none else b.cache q := by
  unfold expireLegality
  by_cases h : b.cache x = some ov <;> by_cases hq : q = x <;> simp [h, hq]

lemma foldl_expire_frame (L : List Pos) (b : Board) (ov : Bool) :
    (L.foldl (fun acc x => expireLegality acc x (some ov)) b).radius = b.radius ∧
    (L.foldl (fun acc x => expireLegality acc x (some ov)) b).element = b.element ∧
    (L.foldl (fun acc x => expireLegality acc x (some ov)) b).catalog = b.catalog := by
  induction L generalizing b with
  | nil => exact ⟨rfl, rfl, rfl⟩
  | cons x rest ih =>
      rw [List.foldl_cons]
      obtain ⟨h1, h2, h3⟩ := ih (expireLegality b x (some ov))
      obtain ⟨g1, g2, g3⟩ := expireLegality_frame b x (some ov)
      exact ⟨h1.trans g1, h2.trans g2, h3.trans g3⟩

lemma foldl_expire_cache (L : List Pos) (b : Board) (ov : Bool) (q : Pos) :
    (L.foldl (fun acc x => expireLegality acc x (some ov)) b).cache q =
      if q ∈ L ∧ b.cache q = some ov then none else b.cache q := by
  induction L generalizing b with
  | nil => simp
  | cons x rest ih =>
      rw [List.foldl_cons, ih, expireLegality_cache]
      by_cases hq : q = x
      · subst hq
        by_cases hc : b.cache q = some ov <;> simp [hc, List.mem_cons]
      · by_cases hm : q ∈ rest <;> simp [hm, hq, List.mem_cons]

lemma setElement_radius (b : Board) (p : Pos) (v : Option Token) :
    (setElement b p v).radius = b.radius := by
  unfold setElement
  by_cases hv : v = b.element p
  · simp [hv]
  · rw [if_neg hv]
    unfold elementChanged
    by_cases h0 : b.element p = v
    · simp [h0]
    · rw [if_neg h0]
      rcases b.element p with _ | t0 <;> rcases v with _ | t1 <;>
        simp only [Option.isNone_none, Option.isNone_some] <;>
        first
          | rfl
          | exact (foldl_expire_frame _ _ _).1

lemma setElement_element (b : Board) (p : Pos) (v : Option Token) :
    (setElement b p v).element = fun q => if q = p then v else b.element q := by
  unfold setElement
  by_cases hv : v = b.element p
  · rw [if_pos hv]
    funext q
    by_cases hq : q = p <;> simp [hq, hv]
  · rw [if_neg hv]
    unfold elementChanged
    by_cases h0 : b.element p = v
    · exact absurd h0.symm hv
    · rw [if_neg h0]
      rcases b.element p with _ | t0 <;> rcases v with _ | t1 <;>
        simp only [Option.isNone_none, Option.isNone_some] <;>
        first
          | rfl
          | exact (foldl_expire_frame _ _ _).2.1

/-- Gaining an element (empty to nonempty) expires exactly the real
neighbors whose cache currently reads `Legal`; every other cache entry of
every cell is untouched. -/
lemma setElement_cache_gain (b : Board) (p : Pos) (t : Token)
    (h : b.element p = none) (q : Pos) :
    (setElement b p (some t)).cache q =
      if q ∈ realNeighbors b.radius p ∧ b.cache q = some true then none else b.cache q := by
  unfold setElement
  rw [if_neg (by simp [h]), h]
  unfold elementChanged
  rw [if_neg (by simp)]
  simp only [Option.isNone_none, Option.isNone_some, Bool.true_eq_false, if_false]
  exact foldl_expire_cache _ _ _ q

/-- Losing an element (nonempty to empty) expires exactly the real
neighbors whose cache currently reads `Illegal`. -/
lemma setElement_cache_loss (b : Board) (p : Pos) (t0 : Token)
    (h : b.element p = some t0) (q : Pos) :
    (setElement b p none).cache q =
      if q ∈ realNeighbors b.radius p ∧ b.cache q = some false then none else b.cache q := by
  unfold setElement
  rw [if_neg (by simp [h]), h]
  unfold elementChanged
  rw [if_neg (by simp)]
  simp only [Option.isNone_none, Option.isNone_some, Bool.false_eq_true, if_false]
  exact foldl_expire_cache _ _ _ q

/-- A token-to-different-token substitution changes no cache entry at all. -/
lemma setElement_cache_subst (b : Board) (p : Pos) (t0 t1 : Token)
    (h : b.element p = some t0) (hne : t0 ≠ t1) (q : Pos) :
    (setElement b p (some t1)).cache q = b.cache q := by
  have h1 : ¬(some t1 = b.element p) := by
    rw [h]
    intro e
    exact hne (Option.some.inj e).symm
  have h2 : ¬((some t0 : Option Token) = some t1) := by
    intro e
    exact hne (Option.some.inj e)
  unfold setElement
  rw [if_neg h1, h]
  unfold elementChanged
  rw [if_neg h2]
  simp

/-- The no-op write: assigning the current value changes nothing. -/
lemma setElement_self (b : Board) (p : Pos) (v : Option Token)
    (h : v = b.element p) : setElement b p v = b := by
  unfold setElement
  rw [if_pos h]

/-! ## The from-scratch predicate under element changes -/

lemma mem_realNeighbors {r : Int} {p x : Pos} :
    x ∈ realNeighbors r p ↔ ∃ i : Fin 6, ring r p i = some x := by
  unfold realNeighbors ringList
  simp [List.mem_filterMap, List.mem_map, List.mem_finRange]

lemma isReal_of_mem_realNeighbors {r : Int} {p x : Pos}
    (h : x ∈ realNeighbors r p) : isReal r x = true := by
  obtain ⟨i, hi⟩ := mem_realNeighbors.1 h
  exact (ring_eq_some_iff.1 hi).1

/-- Neighborhood symmetry on real cells, as list membership. -/
lemma mem_realNeighbors_symm {r : Int} {p q : Pos}
    (hp : isReal r p = true) (hq : isReal r q = true) :
    p ∈ realNeighbors r q ↔ q ∈ realNeighbors r p := by
  rw [mem_realNeighbors, mem_realNeighbors]
  constructor
  · rintro ⟨i, hi⟩
    exact ⟨i + 3, ring_symm_aux hq hi⟩
  · rintro ⟨i, hi⟩
    exact ⟨i + 3, ring_symm_aux hp hi⟩

lemma mem_ringList {r : Int} {p : Pos} {o : Option Pos} :
    o ∈ ringList r p ↔ ∃ i : Fin 6, ring r p i = o := by
  unfold ringList
  simp [List.mem_map, List.mem_finRange]

/-- `legalSpec` only reads the emptiness of the element values. -/
lemma legalSpec_congr_emptiness {b b' : Board} (q : Pos)
    (hrad : b'.radius = b.radius)
    (he : ∀ x, (b'.element x = none) ↔ (b.element x = none)) :
    legalSpec b' q = legalSpec b q := by
  unfold legalSpec
  have hb : ringBools b' q = ringBools b q := by
    unfold ringBools
    rw [hrad]
    refine List.map_congr_left (fun o _ => ?_)
    cases o with
    | none => rfl
    | some x =>
        simp only [slotEmpty]
        exact decide_eq_decide.mpr (he x)
  rw [hb]

/-- `legalSpec` of `q` is unchanged by an element change at a cell `p` that
no ring slot of `q` references. -/
lemma legalSpec_congr_outside {b b' : Board} {q p : Pos}
    (hrad : b'.radius = b.radius)
    (hel : ∀ x, x ≠ p → b'.element x = b.element x)
    (hnot : ∀ i : Fin 6, ring b.radius q i ≠ some p) :
    legalSpec b' q = legalSpec b q := by
  unfold legalSpec
  have hb : ringBools b' q = ringBools b q := by
    unfold ringBools
    rw [hrad]
    refine List.map_congr_left (fun o ho => ?_)
    obtain ⟨i, rfl⟩ := mem_ringList.1 ho
    rcases hr : ring b.radius q i with _ | x
    · rfl
    · have hx : x ≠ p := fun e => hnot i (by rw [hr, e])
      simp only [slotEmpty]
      rw [hel x hx]
  rw [hb]

/-- Monotonicity of the from-scratch predicate: a board with fewer empty
cells (pointwise) cannot be legal where the emptier board is not. -/
lemma legalSpec_mono {b b' : Board} (q : Pos)
    (hrad : b'.radius = b.radius)
    (hle : ∀ x, b'.element x = none → b.element x = none) :
    legalSpec b' q = true → legalSpec b q = true := by
  have hslot : ∀ o : Option Pos, slotEmpty b' o ≤ slotEmpty b o := by
    intro o
    cases o with
    | none => exact le_refl _
    | some x =>
        simp only [slotEmpty]
        rcases h : b'.element x with _ | t
        · rw [hle x h]
        · simp
  unfold legalSpec
  rw [ringBools_eq, ringBools_eq, hrad]
  exact cyclicRun_mono _ _ _ _ _ _ _ _ _ _ _ _
    (hslot _) (hslot _) (hslot _) (hslot _) (hslot _) (hslot _)

/-! ## C1: cache coherence under arbitrary mutation sequences -/

/-- Cache coherence: the board has the advertised radius and every cached
boolean agrees with the from-scratch predicate over current elements. -/
def CacheOK (r : Int) (b : Board) : Prop :=
  b.radius = r ∧
    ∀ p, isReal r p = true → ∀ v, b.cache p = some v → legalSpec b p = v

lemma cacheOK_init (r : Int) : CacheOK r (initBoard r) :=
  ⟨rfl, fun _ _ v hv => by cases hv⟩

/-- Under cache coherence, a `legal` read returns exactly the from-scratch
predicate (recomputing and caching when the cache is unknown). -/
lemma legalRead_eq_spec {r : Int} {b : Board} (h : CacheOK r b) (p : Pos)
    (hp : isReal r p = true) : (legalRead b p).2 = legalSpec b p := by
  unfold legalRead predictLegality
  rcases hc : b.cache p with _ | v
  · show (predictCompute b p ∅).2 = legalSpec b p
    rw [predictCompute_empty]
  · rcases v
    · show (if (∅ : Finset Pos) = ∅ then (b, false) else predictCompute b p ∅).2 = legalSpec b p
      rw [if_pos rfl]
      exact (h.2 p hp false hc).symm
    · exact (h.2 p hp true hc).symm

/-- Cache coherence is preserved by every element write: the catalogedit
changes no cache, a token substitution changes no emptiness, and on an
emptiness transition the directional expiry clears exactly the neighbor
caches that the monotonicity argument cannot carry across the change. -/
lemma cacheOK_setElement {r : Int} {b : Board} (h : CacheOK r b) (p : Pos)
    (v : Option Token) (hp : isReal r p = true) :
    CacheOK r (setElement b p v) := by
  by_cases hv : v = b.element p
  · rw [setElement_self b p v hv]
    exact h
  refine ⟨(setElement_radius b p v).trans h.1, ?_⟩
  intro q hq w hw
  have hrad : (setElement b p v).radius = b.radius := setElement_radius b p v
  have hel : (setElement b p v).element = fun x => if x = p then v else b.element x :=
    setElement_element b p v
  have helne : ∀ x, x ≠ p → (setElement b p v).element x = b.element x := by
    intro x hx
    rw [hel]
    simp [hx]
  -- if q's ring does not reference p, its from-scratch value is unchanged
  have houtside : q ∉ realNeighbors b.radius p →
      legalSpec (setElement b p v) q = legalSpec b q := by
    intro hqn
    refine legalSpec_congr_outside hrad helne ?_
    intro i hi
    have hmem : p ∈ realNeighbors b.radius q := mem_realNeighbors.2 ⟨i, hi⟩
    rw [h.1] at hmem
    rw [mem_realNeighbors_symm hp hq] at hmem
    rw [← h.1] at hmem
    exact hqn hmem
  rcases hprev : b.element p with _ | t0
  · -- gaining an element: v = some t
    rcases hvv : v with _ | t
    · exact absurd (hvv.trans hprev.symm) hv
    subst hvv
    have hc := setElement_cache_gain b p t hprev q
    rw [hc] at hw
    by_cases hcond : q ∈ realNeighbors b.radius p ∧ b.cache q = some true
    · rw [if_pos hcond] at hw
      cases hw
    · rw [if_neg hcond] at hw
      by_cases hqn : q ∈ realNeighbors b.radius p
      · -- a neighbor whose cache was not `Legal`: necessarily `Illegal`
        have hwf : w = false := by
          rcases w
          · rfl
          · exact absurd ⟨hqn, hw⟩ hcond
        subst hwf
        have hspec : legalSpec b q = false := h.2 q hq false hw
        have hmono : legalSpec (setElement b p (some t)) q = true →
            legalSpec b q = true := by
          refine legalSpec_mono q hrad ?_
          intro x hx
          by_cases hxp : x = p
          · rw [hel] at hx
            simp [hxp] at hx
          · rwa [helne x hxp] at hx
        rcases hres : legalSpec (setElement b p (some t)) q
        · rfl
        · rw [hmono hres] at hspec
          cases hspec
      · rw [houtside hqn]
        exact h.2 q hq w hw
  · rcases hvv : v with _ | t1
    · -- losing an element
      subst hvv
      have hc := setElement_cache_loss b p t0 hprev q
      rw [hc] at hw
      by_cases hcond : q ∈ realNeighbors b.radius p ∧ b.cache q = some false
      · rw [if_pos hcond] at hw
        cases hw
      · rw [if_neg hcond] at hw
        by_cases hqn : q ∈ realNeighbors b.radius p
        · have hwt : w = true := by
            rcases w
            · exact absurd ⟨hqn, hw⟩ hcond
            · rfl
          subst hwt
          have hspec : legalSpec b q = true := h.2 q hq true hw
          refine legalSpec_mono q ?_ ?_ hspec
          · exact hrad.symm
          · intro x hx
            by_cases hxp : x = p
            · subst hxp
              rw [hel]
              simp
            · rw [helne x hxp]
              exact hx
        · rw [houtside hqn]
          exact h.2 q hq w hw
    · -- token-to-different-token substitution
      subst hvv
      have hne : t0 ≠ t1 := by
        intro e
        exact hv (by rw [hprev, e])
      have hc := setElement_cache_subst b p t0 t1 hprev hne q
      rw [hc] at hw
      have hcongr : legalSpec (setElement b p (some t1)) q = legalSpec b q := by
        refine legalSpec_congr_emptiness q hrad ?_
        intro x
        by_cases hxp : x = p
        · subst hxp
          rw [hel, hprev]
          simp
        · rw [helne x hxp]
      rw [hcongr]
      exact h.2 q hq w hw

lemma reachable_cacheOK {r : Int} {b : Board} (h : Reachable r b) : CacheOK r b := by
  induction h with
  | init => exact cacheOK_init r
  | step b p v _ hp ih => exact cacheOK_setElement ih p v hp

/-- C1: on every board reachable by element mutations from a fresh board,
a `legal` read of any cell returns exactly the from-scratch recomputation
of the legality predicate over the current elements — the lazy cache plus
directional invalidation never yields a permanently stale answer. -/
theorem legal_read_consistent (r : Int) (b : Board) (p : Pos)
    (h : Reachable r b) (hp : isReal r p = true) :
    (legalRead b p).2 = legalSpec b p :=
  legalRead_eq_spec (reachable_cacheOK h) p hp

/-- Witness for `legal_read_consistent`: after placing a token at `(2,1)`
on the radius-2 board, reading `legal` of the center agrees with the
from-scratch predicate. -/
theorem legal_read_consistent_witness :
    (legalRead (setElement (initBoard 2) ((2 : Int), (1 : Int)) (some "fire"))
        ((2 : Int), (2 : Int))).2 =
      legalSpec (setElement (initBoard 2) ((2 : Int), (1 : Int)) (some "fire"))
        ((2 : Int), (2 : Int)) :=
  legal_read_consistent 2 _ _
    (Reachable.step _ _ _ Reachable.init (by decide)) (by decide)

/-! ## C4: the notification is directional and touches nothing else -/

/-- C4: when a cell's element changes, caches change as follows and in no
other way — empty-to-nonempty resets exactly the real neighbors whose
cache currently reads `Legal`, nonempty-to-empty resets exactly the real
neighbors whose cache reads `Illegal`, and a token-to-different-token
substitution resets no cache at all.  (The `if` conditions cover every
cell: a cell that is not a real neighbor, or whose cache holds any other
value, is untouched.) -/
theorem element_change_directional_expiry (b : Board) (p : Pos) :
    (∀ t : Token, b.element p = none → ∀ q,
        (setElement b p (some t)).cache q =
          if q ∈ realNeighbors b.radius p ∧ b.cache q = some true then none
          else b.cache q) ∧
    (∀ t0 : Token, b.element p = some t0 → ∀ q,
        (setElement b p none).cache q =
          if q ∈ realNeighbors b.radius p ∧ b.cache q = some false then none
          else b.cache q) ∧
    (∀ t0 t1 : Token, b.element p = some t0 → t0 ≠ t1 → ∀ q,
        (setElement b p (some t1)).cache q = b.cache q) :=
  ⟨fun t h q => setElement_cache_gain b p t h q,
    fun t0 h q => setElement_cache_loss b p t0 h q,
    fun t0 t1 h hne q => setElement_cache_subst b p t0 t1 h hne q⟩

/-- A radius-2 state for exercising the directional expiry: `(2,1)` is
empty, the center's cache reads `Legal`, `(1,1)`'s cache reads `Illegal`. -/
def expiryBoard : Board :=
  { radius := 2
    element := fun _ => none
    cache := fun q =>
      if q = ((2 : Int), (2 : Int)) then some true
      else if q = ((1 : Int), (1 : Int)) then some false
      else none
    catalog := fun _ => ∅ }

/-- Witness: giving `(2,1)` a token expires the `Legal` cache of its
neighbor `(2,2)` but leaves the `Illegal` cache of its neighbor `(1,1)`
untouched. -/
theorem element_change_directional_expiry_witness :
    (setElement expiryBoard ((2 : Int), (1 : Int)) (some "water")).cache
        ((2 : Int), (2 : Int)) = none ∧
    (setElement expiryBoard ((2 : Int), (1 : Int)) (some "water")).cache
        ((1 : Int), (1 : Int)) = some false := by
  have h := (element_change_directional_expiry expiryBoard ((2 : Int), (1 : Int))).1
    "water" rfl
  refine ⟨?_, ?_⟩
  · rw [h ((2 : Int), (2 : Int))]
    decide
  · rw [h ((1 : Int), (1 : Int))]
    decide

/-! ## C6: the catalog invariant -/

lemma setElement_catalog_gain (b : Board) (p : Pos) (t : Token)
    (h : b.element p = none) :
    (setElement b p (some t)).catalog =
      fun u => if u = t then insert p (b.catalog t) else b.catalog u := by
  unfold setElement
  rw [if_neg (by simp [h]), h]
  unfold elementChanged
  rw [if_neg (by simp)]
  simp only [Option.isNone_none, Option.isNone_some, Bool.true_eq_false, if_false]
  exact (foldl_expire_frame _ _ _).2.2

lemma setElement_catalog_loss (b : Board) (p : Pos) (t0 : Token)
    (h : b.element p = some t0) :
    (setElement b p none).catalog =
      fun u => if u = t0 then (b.catalog t0).erase p else b.catalog u := by
  unfold setElement
  rw [if_neg (by simp [h]), h]
  unfold elementChanged
  rw [if_neg (by simp)]
  simp only [Option.isNone_none, Option.isNone_some, Bool.false_eq_true, if_false]
  exact (foldl_expire_frame _ _ _).2.2

lemma setElement_catalog_subst (b : Board) (p : Pos) (t0 t1 : Token)
    (h : b.element p = some t0) (hne : t0 ≠ t1) :
    (setElement b p (some t1)).catalog =
      fun u =>
        if u = t1 then insert p (b.catalog t1)
        else if u = t0 then (b.catalog t0).erase p
        else b.catalog u := by
  have h1 : ¬(some t1 = b.element p) := by
    rw [h]
    intro e
    exact hne (Option.some.inj e).symm
  have h2 : ¬((some t0 : Option Token) = some t1) := by
    intro e
    exact hne (Option.some.inj e)
  unfold setElement
  rw [if_neg h1, h]
  unfold elementChanged
  rw [if_neg h2]
  simp only [Option.isNone_some, if_pos rfl]
  have hne' : t1 ≠ t0 := fun e => hne e.symm
  funext u
  by_cases hu1 : u = t1
  · subst hu1
    simp [hne']
  · simp [hu1]

/-- C6: in every reachable state, the catalog set of a token is exactly
the set of real cells currently holding that token (the update happens
synchronously inside the element change, so the invariant never lapses). -/
theorem catalog_consistent (r : Int) (b : Board) (h : Reachable r b)
    (t : Token) (q : Pos) :
    q ∈ b.catalog t ↔ (isReal r q = true ∧ b.element q = some t) := by
  induction h with
  | init => simp [initBoard]
  | step b p v hb hp ih =>
      by_cases hv : v = b.element p
      · rw [setElement_self b p v hv]
        exact ih
      have hel : (setElement b p v).element = fun x => if x = p then v else b.element x :=
        setElement_element b p v
      rcases hprev : b.element p with _ | t0
      · -- gaining: previous element none, v = some tv
        rcases hvv : v with _ | tv
        · exact absurd (hvv.trans hprev.symm) hv
        subst hvv
        rw [setElement_catalog_gain b p tv hprev, hel]
        simp only []
        by_cases hqp : q = p
        · subst hqp
          by_cases ht : t = tv
          · subst ht
            simp [hp]
          · have ht' : ¬tv = t := fun e => ht e.symm
            simp [ht, ih, hprev, ht']
        · by_cases ht : t = tv
          · subst ht
            simp [Finset.mem_insert, hqp, ih]
          · simp [ht, hqp, ih]
      · rcases hvv : v with _ | tv
        · -- losing: previous some t0, v = none
          subst hvv
          rw [setElement_catalog_loss b p t0 hprev, hel]
          simp only []
          by_cases hqp : q = p
          · subst hqp
            by_cases ht : t = t0
            · subst ht
              simp
            · have ht' : ¬t0 = t := fun e => ht e.symm
              simp [ht, ih, hprev, ht']
          · by_cases ht : t = t0
            · subst ht
              simp [Finset.mem_erase, hqp, ih]
            · simp [ht, hqp, ih]
        · -- substitution: previous some t0, v = some tv, t0 ≠ tv
          subst hvv
          have hne : t0 ≠ tv := fun e => hv (by rw [hprev, e])
          have hne' : ¬tv = t0 := fun e => hne e.symm
          rw [setElement_catalog_subst b p t0 tv hprev hne, hel]
          simp only []
          by_cases hqp : q = p
          · subst hqp
            by_cases htv : t = tv
            · subst htv
              simp [hp]
            · by_cases ht0 : t = t0
              · subst ht0
                simp [htv, Finset.mem_erase, hne']
              · have g1 : ¬t0 = t := fun e => ht0 e.symm
                have g2 : ¬tv = t := fun e => htv e.symm
                simp [htv, ht0, ih, hprev, g1, g2]
          · by_cases htv : t = tv
            · subst htv
              simp [Finset.mem_insert, hqp, ih]
            · by_cases ht0 : t = t0
              · subst ht0
                simp [htv, Finset.mem_erase, hqp, ih]
              · simp [htv, ht0, hqp, ih]

/-- Witness: on the radius-2 board after writing `"gold"` at the center,
the catalog set for `"gold"` contains exactly the center. -/
theorem catalog_consistent_witness :
    ((2 : Int), (2 : Int)) ∈
      (setElement (initBoard 2) ((2 : Int), (2 : Int)) (some "gold")).catalog "gold" :=
  (catalog_consistent 2 _ (Reachable.step _ _ _ Reachable.init (by decide))
    "gold" ((2 : Int), (2 : Int))).mpr ⟨by decide, by decide⟩

/-! ## C8: the bitmap snapshot -/

/-- The accumulator-style big-endian value of a bit list, exactly the
`result <<= 1; result |= bit` loop of `Tileset.bitmap`. -/
def bitsToNat (l : List Bool) : Nat :=
  l.foldl (fun acc bit => 2 * acc + (if bit then 1 else 0)) 0

lemma bitmap_eq_bitsToNat (b : Board) :
    bitmap b = bitsToNat ((tilesList b.radius).map (fun p => truthy (b.element p))) := by
  unfold bitmap bitsToNat
  rw [List.foldl_map]

lemma bitsToNat_append_singleton (l : List Bool) (x : Bool) :
    bitsToNat (l ++ [x]) = 2 * bitsToNat l + (if x then 1 else 0) := by
  unfold bitsToNat
  rw [List.foldl_append]
  rfl

lemma bitsToNat_lt (l : List Bool) : bitsToNat l < 2 ^ l.length := by
  induction l using List.reverseRecOn with
  | nil => simp [bitsToNat]
  | append_singleton l x ih =>
      rw [bitsToNat_append_singleton, List.length_append, List.length_cons,
        List.length_nil, pow_add, pow_one]
      rcases x <;> simp <;> omega

lemma bitsToNat_testBit (l : List Bool) (j : Nat) (hj : j < l.length) :
    (bitsToNat l).testBit j = l.getD (l.length - 1 - j) false := by
  induction l using List.reverseRecOn generalizing j with
  | nil => simp at hj
  | append_singleton l x ih =>
      rw [bitsToNat_append_singleton]
      rcases j with _ | j
      · rw [Nat.testBit_zero]
        have hidx : (l ++ [x]).length - 1 - 0 = l.length := by
          simp [List.length_append]
        rw [hidx, List.getD_append_right l [x] false l.length (le_refl _), Nat.sub_self]
        rcases x <;> simp [Nat.mul_add_mod]
      · rw [Nat.testBit_add_one]
        have h2 : (2 * bitsToNat l + (if x then 1 else 0)) / 2 = bitsToNat l := by
          rcases x
          · simp
          · simp
            omega
        rw [h2]
        have hj' : j < l.length := by
          rw [List.length_append] at hj
          simp at hj
          omega
        rw [ih j hj']
        have hidx : (l ++ [x]).length - 1 - (j + 1) = l.length - 1 - j := by
          simp only [List.length_append, List.length_cons, List.length_nil]
          omega
        rw [hidx, List.getD_append l [x] false _ (by omega)]

/-- The bit of cell `i` (most-significant bit first) reads the truthiness
of that cell's element. -/
lemma bitmap_testBit (b : Board) (i : Nat) (hi : i < (tilesList b.radius).length) :
    (bitmap b).testBit ((tilesList b.radius).length - 1 - i) =
      truthy (b.element ((tilesList b.radius).getD i ((0 : Int), (0 : Int)))) := by
  rw [bitmap_eq_bitsToNat]
  have hlen : ((tilesList b.radius).map (fun p => truthy (b.element p))).length =
      (tilesList b.radius).length := List.length_map _ _
  rw [bitsToNat_testBit _ _ (by rw [hlen]; omega)]
  rw [hlen]
  have hidx : (tilesList b.radius).length - 1 -
      ((tilesList b.radius).length - 1 - i) = i := by omega
  rw [hidx, List.getD_eq_getElem _ _ (by rw [hlen]; exact hi),
    List.getD_eq_getElem _ _ hi, List.getElem_map]

/-- A radius-1 board (a single tile at `(1,1)`) holding the empty-string
token. -/
def emptyStrBoard : Board :=
  { radius := 1
    element := fun p => if p = ((1 : Int), (1 : Int)) then some "" else none
    cache := fun _ => none
    catalog := fun t => if t = "" then {((1 : Int), (1 : Int))} else ∅ }

/-- C8 as stated is false: `if tile.element:` tests Python truthiness, not
`is not None`.  `emptyStrBoard`'s only cell holds the (falsy) empty-string
token, yet its snapshot is `0` — equal to the snapshot of the fully empty
board of identical topology, whose occupancy differs. -/
theorem bitmap_misses_falsy_token :
    emptyStrBoard.element ((1 : Int), (1 : Int)) = some "" ∧
    bitmap emptyStrBoard = 0 ∧
    bitmap (initBoard 1) = 0 ∧
    (initBoard 1).element ((1 : Int), (1 : Int)) = none := by
  exact ⟨rfl, by decide, by decide, rfl⟩

/-- C8 amended: the bit for the `i`-th cell in enumeration order
(most-significant bit first) is `1` exactly when that cell holds a truthy
token — non-null and, for string tokens, nonempty; and two boards of
identical topology have equal snapshots iff they agree on truthy-occupancy
at every cell. -/
theorem bitmap_encodes_truthy_occupancy (b b' : Board) (hr : b'.radius = b.radius) :
    (∀ i, i < (tilesList b.radius).length →
        (bitmap b).testBit ((tilesList b.radius).length - 1 - i) =
          truthy (b.element ((tilesList b.radius).getD i ((0 : Int), (0 : Int))))) ∧
    (bitmap b' = bitmap b ↔
      ∀ p ∈ tilesList b.radius, truthy (b'.element p) = truthy (b.element p)) := by
  refine ⟨fun i hi => bitmap_testBit b i hi, ?_, ?_⟩
  · intro h p hp
    obtain ⟨i, hi, rfl⟩ := List.mem_iff_getElem.1 hp
    have hb := bitmap_testBit b i hi
    have hb' := bitmap_testBit b' i (by rw [hr]; exact hi)
    rw [hr] at hb'
    rw [h] at hb'
    rw [hb] at hb'
    rw [List.getD_eq_getElem _ _ hi] at hb'
    exact hb'.symm
  · intro hsame
    rw [bitmap_eq_bitsToNat, bitmap_eq_bitsToNat, hr]
    congr 1
    exact List.map_congr_left hsame

/-- Witness for the amended C8 on concrete boards: `emptyStrBoard` against
the empty radius-1 board. -/
theorem bitmap_encodes_truthy_occupancy_witness :
    (bitmap emptyStrBoard).testBit 0 =
      truthy (emptyStrBoard.element ((1 : Int), (1 : Int))) ∧
    (bitmap (initBoard 1) = bitmap emptyStrBoard ↔
      ∀ p ∈ tilesList emptyStrBoard.radius,
        truthy ((initBoard 1).element p) = truthy (emptyStrBoard.element p)) :=
  ⟨(bitmap_encodes_truthy_occupancy emptyStrBoard (initBoard 1) rfl).1 0 (by decide),
    (bitmap_encodes_truthy_occupancy emptyStrBoard (initBoard 1) rfl).2⟩

/-! ## Distinctness of ring slots -/

lemma nbrPos_inj {p : Pos} {i j : Fin 6} (h : nbrPos p i = nbrPos p j) : i = j := by
  obtain ⟨y, x⟩ := p
  fin_cases i <;> fin_cases j <;>
    first
      | rfl
      | (exfalso
         simp only [nbrPos, slotOffset, altrow, Prod.mk.injEq] at h
         omega)

lemma realNeighbors_nodup (r : Int) (p : Pos) : (realNeighbors r p).Nodup := by
  unfold realNeighbors ringList
  rw [List.filterMap_map]
  refine List.Nodup.filterMap ?_ (List.nodup_finRange 6)
  intro i j x hi hj
  simp only [Function.comp_apply, id_eq, Option.mem_def] at hi hj
  have hpi := (ring_eq_some_iff.1 hi).2
  have hpj := (ring_eq_some_iff.1 hj).2
  exact nbrPos_inj (hpi.trans hpj.symm)

lemma nonemptyNeighbors_nodup (b : Board) (p : Pos) :
    (nonemptyNeighbors b p).Nodup :=
  (realNeighbors_nodup b.radius p).filter _

/-! ## The batch-impact step: frame and locality -/

lemma affectedStep_frame (removed : Finset Pos) (b : Board) (x : Pos) :
    (affectedStep removed b x).1.radius = b.radius ∧
    (affectedStep removed b x).1.element = b.element ∧
    ∀ q, q ≠ x → (affectedStep removed b x).1.cache q = b.cache q := by
  unfold affectedStep
  obtain ⟨f1, f2, f3, f4⟩ := predictLegality_frame b x removed
  by_cases h : (predictLegality b x removed).2 = true
  · simp only [h, if_true]
    obtain ⟨g1, g2, g3, g4⟩ :=
      predictLegality_frame (predictLegality b x removed).1 x (∅ : Finset Pos)
    exact ⟨g1.trans f1, g2.trans f2, fun q hq => (g4 q hq).trans (f4 q hq)⟩
  · simp only [Bool.not_eq_true] at h
    simp only [h, Bool.false_eq_true, if_false]
    exact ⟨f1, f2, fun q hq => f4 q hq⟩

/-- The kept/dropped verdict of one batch-impact iteration depends only on
the candidate's own cache entry, the elements and the topology. -/
lemma affectedStep_congr (removed : Finset Pos) (b b0 : Board) (x : Pos)
    (hrad : b.radius = b0.radius) (hel : b.element = b0.element)
    (hc : b.cache x = b0.cache x) :
    (affectedStep removed b x).2 = (affectedStep removed b0 x).2 := by
  obtain ⟨e1, e2⟩ := @predictLegality_congr b0 b x removed hrad hel hc
  simp only [affectedStep]
  rw [e1]
  by_cases h : (predictLegality b0 x removed).2 = true
  · simp only [h, if_true]
    obtain ⟨f1, f2, f3, f4⟩ := predictLegality_frame b x removed
    obtain ⟨g1, g2, g3, g4⟩ := predictLegality_frame b0 x removed
    obtain ⟨d1, d2⟩ := @predictLegality_congr
      (predictLegality b0 x removed).1 (predictLegality b x removed).1
      x (∅ : Finset Pos) (f1.trans (hrad.trans g1.symm)) (f2.trans (hel.trans g2.symm)) e2
    unfold legalRead
    rw [d1]
  · simp only [Bool.not_eq_true] at h
    simp only [h, Bool.false_eq_true, if_false]

/-- Membership characterisation of the `affected_neighbors` loop: because
each iteration only writes the visited candidate's own cache, the verdict
for every candidate is the one computed on the starting board. -/
lemma affectedNeighbors_fold_mem (removed : Finset Pos) (L : List Pos)
    (b0 b : Board) (acc : List Pos)
    (hrad : b.radius = b0.radius) (hel : b.element = b0.element)
    (hc : ∀ x ∈ L, b.cache x = b0.cache x) (hnd : L.Nodup) (q : Pos) :
    (q ∈ (L.foldl (fun acc x =>
        let st := affectedStep removed acc.1 x
        (st.1, if st.2 then acc.2 ++ [x] else acc.2)) (b, acc)).2) ↔
      (q ∈ acc ∨ (q ∈ L ∧ (affectedStep removed b0 q).2 = true)) := by
  induction L generalizing b acc with
  | nil => simp
  | cons x rest ih =>
      rw [List.foldl_cons]
      have hcx : b.cache x = b0.cache x := hc x (List.mem_cons_self x rest)
      have hstep := affectedStep_congr removed b b0 x hrad hel hcx
      obtain ⟨f1, f2, f3⟩ := affectedStep_frame removed b x
      have hnd' := (List.nodup_cons.1 hnd).2
      have hnx := (List.nodup_cons.1 hnd).1
      have hc' : ∀ y ∈ rest, (affectedStep removed b x).1.cache y = b0.cache y := by
        intro y hy
        have hyx : y ≠ x := fun e => hnx (e ▸ hy)
        rw [f3 y hyx]
        exact hc y (List.mem_cons_of_mem x hy)
      rw [ih _ _ (f1.trans hrad) (f2.trans hel) hc' hnd']
      by_cases hs : (affectedStep removed b x).2 = true
      · have hPx : (affectedStep removed b0 x).2 = true := hstep ▸ hs
        simp only [hs, if_true, List.mem_append, List.mem_cons, List.not_mem_nil,
          or_false]
        constructor
        · rintro (⟨ha | rfl⟩ | ⟨hq, hP⟩)
          · exact Or.inl ha
          · exact Or.inr ⟨Or.inl rfl, hPx⟩
          · exact Or.inr ⟨Or.inr hq, hP⟩
        · rintro (ha | ⟨rfl | hq, hP⟩)
          · exact Or.inl (Or.inl ha)
          · exact Or.inl (Or.inr rfl)
          · exact Or.inr ⟨hq, hP⟩
      · simp only [Bool.not_eq_true] at hs
        have hPx : (affectedStep removed b0 x).2 = false := hstep ▸ hs
        simp only [hs, Bool.false_eq_true, if_false, List.mem_cons]
        constructor
        · rintro (ha | ⟨hq, hP⟩)
          · exact Or.inl ha
          · exact Or.inr ⟨Or.inr hq, hP⟩
        · rintro (ha | ⟨rfl | hq, hP⟩)
          · exact Or.inl ha
          · rw [hPx] at hP
            cases hP
          · exact Or.inr ⟨hq, hP⟩

/-- Membership characterisation of the `affected_tiles` loop (the extra
`element is None` skip performs no state change). -/
lemma affectedTiles_fold_mem (removed : Finset Pos) (L : List Pos)
    (b0 b : Board) (acc : Finset Pos)
    (hrad : b.radius = b0.radius) (hel : b.element = b0.element)
    (hc : ∀ x ∈ L, b.cache x = b0.cache x) (hnd : L.Nodup) (q : Pos) :
    (q ∈ (L.foldl (fun acc x =>
        if acc.1.element x = none then acc
        else
          let st := affectedStep removed acc.1 x
          (st.1, if st.2 then insert x acc.2 else acc.2)) (b, acc)).2) ↔
      (q ∈ acc ∨
        (q ∈ L ∧ b0.element q ≠ none ∧ (affectedStep removed b0 q).2 = true)) := by
  induction L generalizing b acc with
  | nil => simp
  | cons x rest ih =>
      rw [List.foldl_cons]
      have hcx : b.cache x = b0.cache x := hc x (List.mem_cons_self x rest)
      have hstep := affectedStep_congr removed b b0 x hrad hel hcx
      have hnd' := (List.nodup_cons.1 hnd).2
      have hnx := (List.nodup_cons.1 hnd).1
      have hcrest : ∀ y ∈ rest, b.cache y = b0.cache y :=
        fun y hy => hc y (List.mem_cons_of_mem x hy)
      by_cases hex : b.element x = none
      · rw [if_pos hex]
        rw [ih _ _ hrad hel hcrest hnd']
        have hex0 : b0.element x = none := by rw [← hel]; exact hex
        simp only [List.mem_cons]
        constructor
        · rintro (ha | ⟨hq, hP⟩)
          · exact Or.inl ha
          · exact Or.inr ⟨Or.inr hq, hP⟩
        · rintro (ha | ⟨rfl | hq, hP⟩)
          · exact Or.inl ha
          · exact absurd hex0 hP.1
          · exact Or.inr ⟨hq, hP⟩
      · rw [if_neg hex]
        have hex0 : b0.element x ≠ none := by rw [← hel]; exact hex
        obtain ⟨f1, f2, f3⟩ := affectedStep_frame removed b x
        have hc' : ∀ y ∈ rest, (affectedStep removed b x).1.cache y = b0.cache y := by
          intro y hy
          have hyx : y ≠ x := fun e => hnx (e ▸ hy)
          rw [f3 y hyx]
          exact hcrest y hy
        rw [ih _ _ (f1.trans hrad) (f2.trans hel) hc' hnd']
        by_cases hs : (affectedStep removed b x).2 = true
        · have hPx : (affectedStep removed b0 x).2 = true := hstep ▸ hs
          simp only [hs, if_true, Finset.mem_insert, List.mem_cons]
          constructor
          · rintro (ha | ⟨hq, hP⟩)
            · rcases ha with rfl | ha
              · exact Or.inr ⟨Or.inl rfl, hex0, hPx⟩
              · exact Or.inl ha
            · exact Or.inr ⟨Or.inr hq, hP⟩
          · rintro (ha | ⟨rfl | hq, hP⟩)
            · exact Or.inl (Or.inr ha)
            · exact Or.inl (Or.inl rfl)
            · exact Or.inr ⟨hq, hP⟩
        · simp only [Bool.not_eq_true] at hs
          have hPx : (affectedStep removed b0 x).2 = false := hstep ▸ hs
          simp only [hs, Bool.false_eq_true, if_false, List.mem_cons]
          constructor
          · rintro (ha | ⟨hq, hP⟩)
            · exact Or.inl ha
            · exact Or.inr ⟨Or.inr hq, hP⟩
          · rintro (ha | ⟨rfl | hq, hP⟩)
            · exact Or.inl ha
            · rw [hPx] at hP
              exact absurd hP.2 (by simp)
            · exact Or.inr ⟨hq, hP⟩

/-! ## C5: the single-cell batch query agrees with `affected_neighbors` -/

lemma affectedNeighbors_mem (b : Board) (p q : Pos) :
    q ∈ (affectedNeighbors b p).2 ↔
      q ∈ nonemptyNeighbors b p ∧ (affectedStep {p} b q).2 = true := by
  unfold affectedNeighbors
  rw [affectedNeighbors_fold_mem {p} _ b b [] rfl rfl (fun _ _ => rfl)
    (nonemptyNeighbors_nodup b p) q]
  simp

lemma affectedTiles_mem (b : Board) (tiles : Finset Pos) (q : Pos) :
    q ∈ (affectedTiles b tiles).2 ↔
      (q ∈ (tilesList b.radius).filter (fun x => x ∈ allNeighborsOf b tiles) ∧
        b.element q ≠ none ∧ (affectedStep tiles b q).2 = true) := by
  unfold affectedTiles
  rw [affectedTiles_fold_mem tiles _ b b ∅ rfl rfl (fun _ _ => rfl)
    ((tilesList_nodup b.radius).filter _) q]
  simp

lemma allNeighborsOf_single (b : Board) (c : Pos) (hc : b.element c ≠ none) :
    allNeighborsOf b {c} = (realNeighbors b.radius c).toFinset := by
  unfold allNeighborsOf
  rw [Finset.singleton_biUnion, if_pos (Option.isSome_iff_ne_none.2 hc)]

/-- C5: for a single nonempty cell `c`, the batch query `affected_tiles`
over `{c}` returns exactly the set of cells `affected_neighbors` reports
for `c`. -/
theorem affected_tiles_single (b : Board) (c : Pos)
    (_hreal : isReal b.radius c = true) (hc : b.element c ≠ none) :
    (affectedTiles b {c}).2 = (affectedNeighbors b c).2.toFinset := by
  ext q
  rw [List.mem_toFinset, affectedTiles_mem, affectedNeighbors_mem]
  rw [List.mem_filter]
  constructor
  · rintro ⟨⟨-, hcand⟩, hne, hstep⟩
    rw [decide_eq_true_eq, allNeighborsOf_single b c hc, List.mem_toFinset] at hcand
    refine ⟨?_, hstep⟩
    unfold nonemptyNeighbors
    rw [List.mem_filter]
    exact ⟨hcand, by rw [Option.isSome_iff_ne_none]; exact hne⟩
  · rintro ⟨hmem, hstep⟩
    unfold nonemptyNeighbors at hmem
    rw [List.mem_filter] at hmem
    obtain ⟨hrn, hsome⟩ := hmem
    refine ⟨⟨?_, ?_⟩, ?_, hstep⟩
    · exact mem_tilesList.2 (isReal_of_mem_realNeighbors hrn)
    · rw [decide_eq_true_eq, allNeighborsOf_single b c hc, List.mem_toFinset]
      exact hrn
    · rw [← Option.isSome_iff_ne_none]
      exact hsome

/-- A radius-3 board exercising the batch query: the centre `(3,3)` holds
`"A"`; its neighbor `(2,3)` holds `"B"` and would become legal only via the
wraparound replay once `(3,3)` is removed. -/
def batchBoard : Board :=
  { radius := 3
    element := fun p =>
      if p = ((3 : Int), (3 : Int)) then some "A"
      else if p = ((2 : Int), (3 : Int)) then some "B"
      else if p = ((2 : Int), (4 : Int)) then some "A"
      else if p = ((3 : Int), (4 : Int)) then some "A"
      else if p = ((4 : Int), (4 : Int)) then some "A"
      else if p = ((4 : Int), (3 : Int)) then some "A"
      else if p = ((1 : Int), (2 : Int)) then some "A"
      else if p = ((1 : Int), (3 : Int)) then some "A"
      else none
    cache := fun _ => none
    catalog := fun t =>
      if t = "B" then {((2 : Int), (3 : Int))}
      else if t = "A" then
        {((3 : Int), (3 : Int)), ((2 : Int), (4 : Int)), ((3 : Int), (4 : Int)),
          ((4 : Int), (4 : Int)), ((4 : Int), (3 : Int)), ((1 : Int), (2 : Int)),
          ((1 : Int), (3 : Int))}
      else ∅ }

/-- Witness: on `batchBoard` the two queries agree, and the agreed set
contains `(2,3)` — a cell that becomes legal only through the wraparound
replay under the hypothetical removal of the centre. -/
theorem affected_tiles_single_witness :
    batchBoard.element ((3 : Int), (3 : Int)) ≠ none ∧
    (affectedTiles batchBoard {((3 : Int), (3 : Int))}).2 =
      (affectedNeighbors batchBoard ((3 : Int), (3 : Int))).2.toFinset ∧
    ((2 : Int), (3 : Int)) ∈ (affectedTiles batchBoard {((3 : Int), (3 : Int))}).2 :=
  ⟨by decide, affected_tiles_single batchBoard _ (by decide) (by decide), by decide⟩

/-! ## C9: legality never inspects the cell's own element -/

/-- `predict_legality`'s verdict depends only on the pair list and the
candidate's own cache entry. -/
lemma predictLegality_result_congr {b b' : Board} (p : Pos) (removed : Finset Pos)
    (hstat : ringStatuses b' p removed = ringStatuses b p removed)
    (hc : b'.cache p = b.cache p) :
    (predictLegality b' p removed).2 = (predictLegality b p removed).2 := by
  have hcomp : (predictCompute b' p removed).2 = (predictCompute b p removed).2 := by
    unfold predictCompute
    rw [hstat]
    rcases scanOutcome (ringStatuses b p removed) <;> rfl
  unfold predictLegality
  rw [hc]
  rcases b.cache p with _ | v
  · exact hcomp
  · rcases v
    · by_cases h : removed = ∅ <;> simp [h, hcomp]
    · rfl

/-- The scan of cell `p` classifies only ring entries, and no ring slot of
`p` references `p` itself; so the verdict is invariant under any change of
`p`'s own element (performed here as a raw field update, bypassing the
notification). -/
lemma predictLegality_ignores_own_element (b : Board) (p : Pos) (v : Option Token)
    (removed : Finset Pos) :
    (predictLegality
        { b with element := fun x => if x = p then v else b.element x } p removed).2 =
      (predictLegality b p removed).2 := by
  refine predictLegality_result_congr p removed ?_ rfl
  unfold ringStatuses
  refine List.map_congr_left (fun o ho => ?_)
  obtain ⟨i, rfl⟩ := mem_ringList.1 ho
  rcases hr : ring b.radius p i with _ | x
  · rfl
  · have hx : x ≠ p := by
      have hnb := (ring_eq_some_iff.1 hr).2
      rintro rfl
      exact nbrPos_ne_self x i hnb
    simp only [slotStatus, if_neg hx]

/-- Cells reported by `legal_tiles` are nonempty: the element filter is
applied inside the loop and the loop never changes elements. -/
lemma legalTiles_fold_elem (L : List Pos) (b0 b : Board) (acc : Finset Pos)
    (hel : b.element = b0.element)
    (hacc : ∀ x ∈ acc, b0.element x ≠ none) (q : Pos)
    (hq : q ∈ (L.foldl (fun acc q =>
        let lg := legalRead acc.1 q
        if lg.2 = true ∧ (lg.1.element q).isSome = true then (lg.1, insert q acc.2)
        else (lg.1, acc.2)) (b, acc)).2) :
    b0.element q ≠ none := by
  induction L generalizing b acc with
  | nil => exact hacc q hq
  | cons x rest ih =>
      rw [List.foldl_cons] at hq
      obtain ⟨f1, f2, f3, f4⟩ := predictLegality_frame b x (∅ : Finset Pos)
      by_cases hcond : (legalRead b x).2 = true ∧ ((legalRead b x).1.element x).isSome = true
      · rw [if_pos hcond] at hq
        refine ih _ _ (f2.trans hel) ?_ hq
        intro y hy
        rcases Finset.mem_insert.1 hy with rfl | hy'
        · have := hcond.2
          rw [Option.isSome_iff_ne_none] at this
          unfold legalRead at this
          rw [f2, hel] at this
          exact this
        · exact hacc y hy'
      · rw [if_neg hcond] at hq
        exact ih _ _ (f2.trans hel) hacc hq

lemma legalTiles_mem_nonempty (b : Board) (q : Pos)
    (hq : q ∈ (legalTiles b).2) : b.element q ≠ none := by
  unfold legalTiles at hq
  exact legalTiles_fold_elem (tilesList b.radius) b b ∅ rfl
    (fun x hx => absurd hx (Finset.not_mem_empty x)) q hq

/-- C9: the per-cell legality computation never inspects the cell's own
element — changing it (raw, without notification) never changes any
`predict_legality` verdict for that cell; in particular an empty cell
whose ring carries a qualifying run reads `legal = true`, and it is only
the board-level `legal_tiles` query that keeps such empty cells out of the
authoritative removable set. -/
theorem legality_ignores_own_element (r : Int) (b : Board) (p : Pos)
    (hb : Reachable r b) (hp : isReal r p = true)
    (hemp : b.element p = none) (hrun : legalSpec b p = true) :
    (∀ v : Option Token, ∀ removed : Finset Pos,
        (predictLegality
            { b with element := fun x => if x = p then v else b.element x } p removed).2 =
          (predictLegality b p removed).2) ∧
    (legalRead b p).2 = true ∧
    p ∉ (legalTiles b).2 := by
  refine ⟨fun v removed => predictLegality_ignores_own_element b p v removed, ?_, ?_⟩
  · rw [legalRead_eq_spec (reachable_cacheOK hb) p hp, hrun]
  · intro hmem
    exact legalTiles_mem_nonempty b p hmem hemp

/-- Witness: the empty centre of the fresh radius-2 board has a qualifying
ring run, reads legal, is insensitive to a raw own-element change, and is
excluded from `legal_tiles`. -/
theorem legality_ignores_own_element_witness :
    (predictLegality
        { initBoard 2 with
            element := fun x => if x = ((2 : Int), (2 : Int)) then some "A"
              else (initBoard 2).element x } ((2 : Int), (2 : Int)) ∅).2 =
      (predictLegality (initBoard 2) ((2 : Int), (2 : Int)) ∅).2 ∧
    (legalRead (initBoard 2) ((2 : Int), (2 : Int))).2 = true ∧
    ((2 : Int), (2 : Int)) ∉ (legalTiles (initBoard 2)).2 := by
  obtain ⟨h1, h2, h3⟩ := legality_ignores_own_element 2 (initBoard 2)
    ((2 : Int), (2 : Int)) Reachable.init (by decide) rfl (by decide)
  exact ⟨h1 (some "A") ∅, h2, h3⟩

end Sigsolve
